import Mathlib

/-!
Shallow embedding of the `hello-wgpu` cube-viewer core: the `Camera` motion
model from `src/camera.rs`, the cube geometry and resize handler from
`src/render.rs`, and the per-frame input mapping from `src/main.rs`.

Real-valued `f32` arithmetic is embedded over `ℝ` (the spec's properties are
stated in exact real arithmetic, "within floating tolerance"); the cube
geometry, whose coordinates are the exactly representable values `±1.0` and
whose colors use only `0.0`/`1.0`, is embedded over `ℤ` so that its properties
are decidable by exact kernel computation. The linear-algebra helpers (`Vec3`, `Quat`, `Mat4`) are
translated from the `glam` crate's scalar implementations, which the source
uses; `glam` matrices are column-major, so `Mat4` stores four column vectors
`x_axis … w_axis` exactly as `glam::Mat4` does.
-/

noncomputable section

/-- 3-component vector, `glam::Vec3`/`Vec3A` (generic over the scalar so the
geometry can be stated over `ℤ` and the camera over `ℝ`). -/
structure Vec3 (α : Type) where
  x : α
  y : α
  z : α
deriving DecidableEq

/-- Componentwise addition, `glam` `Vec3 + Vec3`. -/
def Vec3.add {α : Type} [Add α] (a b : Vec3 α) : Vec3 α :=
  ⟨a.x + b.x, a.y + b.y, a.z + b.z⟩

instance {α : Type} [Add α] : Add (Vec3 α) := ⟨Vec3.add⟩

/-- Componentwise subtraction, `glam` `Vec3 - Vec3`. -/
def Vec3.sub {α : Type} [Sub α] (a b : Vec3 α) : Vec3 α :=
  ⟨a.x - b.x, a.y - b.y, a.z - b.z⟩

instance {α : Type} [Sub α] : Sub (Vec3 α) := ⟨Vec3.sub⟩

/-- Scalar multiplication, `glam` `f32 * Vec3`. -/
def Vec3.smul {α : Type} [Mul α] (s : α) (v : Vec3 α) : Vec3 α :=
  ⟨s * v.x, s * v.y, s * v.z⟩

instance {α : Type} [Mul α] : SMul α (Vec3 α) := ⟨Vec3.smul⟩

/-- `glam::Vec3::ZERO`. -/
def Vec3.zero {α : Type} [Zero α] : Vec3 α := ⟨0, 0, 0⟩

instance {α : Type} [Zero α] : Zero (Vec3 α) := ⟨Vec3.zero⟩

/-- `glam::Vec3::dot`. -/
def Vec3.dot {α : Type} [Mul α] [Add α] (a b : Vec3 α) : α :=
  a.x * b.x + a.y * b.y + a.z * b.z

/-- `glam::Vec3::cross`. -/
def Vec3.cross {α : Type} [Mul α] [Sub α] (a b : Vec3 α) : Vec3 α :=
  ⟨a.y * b.z - a.z * b.y, a.z * b.x - a.x * b.z, a.x * b.y - a.y * b.x⟩

/-- `glam::Vec3::length`. -/
def Vec3.length (v : Vec3 ℝ) : ℝ :=
  Real.sqrt (v.x * v.x + v.y * v.y + v.z * v.z)

/-- `glam::Vec3::normalize_or_zero`: `v / ‖v‖` when the length is a positive
finite number, the zero vector otherwise (over `ℝ` only zero length can
fail). -/
def Vec3.normalize_or_zero (v : Vec3 ℝ) : Vec3 ℝ :=
  if v.length = 0 then 0 else (1 / v.length) • v

/-- Quaternion with `glam`'s field order `x, y, z, w`. -/
structure Quat where
  x : ℝ
  y : ℝ
  z : ℝ
  w : ℝ

/-- `glam::Quat::from_rotation_x`. -/
def Quat.from_rotation_x (angle : ℝ) : Quat :=
  ⟨Real.sin (angle / 2), 0, 0, Real.cos (angle / 2)⟩

/-- `glam::Quat::from_rotation_y`. -/
def Quat.from_rotation_y (angle : ℝ) : Quat :=
  ⟨0, Real.sin (angle / 2), 0, Real.cos (angle / 2)⟩

/-- Hamilton product, `glam` `Quat * Quat`. -/
def Quat.mul (a b : Quat) : Quat :=
  ⟨a.w * b.x + a.x * b.w + a.y * b.z - a.z * b.y,
   a.w * b.y + a.y * b.w + a.z * b.x - a.x * b.z,
   a.w * b.z + a.z * b.w + a.x * b.y - a.y * b.x,
   a.w * b.w - a.x * b.x - a.y * b.y - a.z * b.z⟩

instance : Mul Quat := ⟨Quat.mul⟩

/-- `glam::Quat::inverse`: the conjugate (the source only inverts unit
quaternions produced by `from_rotation_x/y` products). -/
def Quat.inverse (q : Quat) : Quat := ⟨-q.x, -q.y, -q.z, q.w⟩

/-- `glam::Quat::mul_vec3` (scalar path): with `b` the vector part,
`v * (w² - b·b) + b * (2 v·b) + (b × v) * (2 w)`. -/
def Quat.mul_vec3 (q : Quat) (v : Vec3 ℝ) : Vec3 ℝ :=
  let b : Vec3 ℝ := ⟨q.x, q.y, q.z⟩
  (q.w * q.w - b.dot b) • v + (v.dot b * 2) • b + (q.w * 2) • b.cross v

/-- 4-component vector, `glam::Vec4`. -/
structure Vec4 where
  x : ℝ
  y : ℝ
  z : ℝ
  w : ℝ

/-- Column-major 4×4 matrix, `glam::Mat4` (columns `x_axis … w_axis`). -/
structure Mat4 where
  x_axis : Vec4
  y_axis : Vec4
  z_axis : Vec4
  w_axis : Vec4

/-- `glam::Mat4::mul_vec4`: linear combination of the columns. -/
def Mat4.mul_vec4 (m : Mat4) (v : Vec4) : Vec4 :=
  ⟨m.x_axis.x * v.x + m.y_axis.x * v.y + m.z_axis.x * v.z + m.w_axis.x * v.w,
   m.x_axis.y * v.x + m.y_axis.y * v.y + m.z_axis.y * v.z + m.w_axis.y * v.w,
   m.x_axis.z * v.x + m.y_axis.z * v.y + m.z_axis.z * v.z + m.w_axis.z * v.w,
   m.x_axis.w * v.x + m.y_axis.w * v.y + m.z_axis.w * v.z + m.w_axis.w * v.w⟩

/-- `glam` `Mat4 * Mat4`: each column of the right factor mapped through the
left factor. -/
def Mat4.mul (a b : Mat4) : Mat4 :=
  ⟨a.mul_vec4 b.x_axis, a.mul_vec4 b.y_axis, a.mul_vec4 b.z_axis, a.mul_vec4 b.w_axis⟩

instance : Mul Mat4 := ⟨Mat4.mul⟩

/-- `glam::Mat4::from_translation`. -/
def Mat4.from_translation (v : Vec3 ℝ) : Mat4 :=
  ⟨⟨1, 0, 0, 0⟩, ⟨0, 1, 0, 0⟩, ⟨0, 0, 1, 0⟩, ⟨v.x, v.y, v.z, 1⟩⟩

/-- `glam::Mat4::from_quat`: the rotation matrix whose columns are the images
of the basis vectors under the (unit) quaternion. -/
def Mat4.from_quat (q : Quat) : Mat4 :=
  ⟨⟨1 - 2 * (q.y * q.y + q.z * q.z), 2 * (q.x * q.y + q.w * q.z),
    2 * (q.x * q.z - q.w * q.y), 0⟩,
   ⟨2 * (q.x * q.y - q.w * q.z), 1 - 2 * (q.x * q.x + q.z * q.z),
    2 * (q.y * q.z + q.w * q.x), 0⟩,
   ⟨2 * (q.x * q.z + q.w * q.y), 2 * (q.y * q.z - q.w * q.x),
    1 - 2 * (q.x * q.x + q.y * q.y), 0⟩,
   ⟨0, 0, 0, 1⟩⟩

/-- `glam::Mat4::transform_point3`: apply an affine matrix to a point
(homogeneous coordinate 1, returning the `xyz` part). -/
def Mat4.transform_point3 (m : Mat4) (p : Vec3 ℝ) : Vec3 ℝ :=
  let v := m.mul_vec4 ⟨p.x, p.y, p.z, 1⟩
  ⟨v.x, v.y, v.z⟩

/-- `const STIFFNESS: f32 = 0.5` in `src/camera.rs`. -/
def STIFFNESS : ℝ := 0.5

/-- `const REFERENCE_FPS: f32 = 60.0`, local to `Camera::lerp_exp`. -/
def REFERENCE_FPS : ℝ := 60

/-- `std::f32::consts::TAU`, one full turn. -/
def TAU : ℝ := 2 * Real.pi

/-- The camera state of `src/camera.rs`. -/
structure Camera where
  origin : Vec3 ℝ
  yaw : ℝ
  pitch : ℝ
  zoom : ℝ

/-- `Camera::orbit`. -/
def Camera.orbit (self : Camera) (yaw pitch : ℝ) : Camera :=
  { self with yaw := self.yaw + yaw, pitch := self.pitch + pitch }

/-- `Camera::zoom` (named `zoomBy` because `Camera.zoom` is the field
projection): adds the delta to the stored log-distance scalar. -/
def Camera.zoomBy (self : Camera) (zoom : ℝ) : Camera :=
  { self with zoom := self.zoom + zoom }

/-- `Camera::rotation`: yaw about world Y, pitch about X, composed
`pitch * yaw`. -/
def Camera.rotation (self : Camera) : Quat :=
  (Quat.from_rotation_x self.pitch) * (Quat.from_rotation_y self.yaw)

/-- `Camera::pan`. -/
def Camera.pan (self : Camera) (rightwards upwards : ℝ) : Camera :=
  { self with origin := self.origin + (self.rotation).inverse.mul_vec3 ⟨rightwards, upwards, 0⟩ }

/-- `Camera::translate`. -/
def Camera.translate (self : Camera) (translation : Vec3 ℝ) : Camera :=
  { self with origin := self.origin + translation }

/-- `Camera::default()`: the home view. -/
def Camera.default : Camera :=
  { origin := ⟨0, 0, 0⟩, yaw := 1, pitch := 0.5, zoom := 2 }

/-- `Camera::reset`: snap yaw/pitch to the nearest whole number of turns plus
the home angles, restore `origin` and `zoom` to the defaults. -/
def Camera.reset (self : Camera) : Camera :=
  { Camera.default with
    yaw := TAU * (round (self.yaw / TAU) : ℝ) + Camera.default.yaw,
    pitch := TAU * (round (self.pitch / TAU) : ℝ) + Camera.default.pitch }

/-- `Camera::matrix`: `translation_radius * rotation * translation_origin`. -/
def Camera.matrix (self : Camera) : Mat4 :=
  (Mat4.from_translation ⟨0, 0, -Real.exp self.zoom⟩) * (Mat4.from_quat self.rotation)
    * (Mat4.from_translation self.origin)

/-- The continuous decay rate of `Camera::lerp_exp`:
`-REFERENCE_FPS * (1 - STIFFNESS).ln()`. -/
def rate : ℝ := -REFERENCE_FPS * Real.log (1 - STIFFNESS)

/-- The interpolant of `Camera::lerp_exp`: `1 - (-rate * dt).exp()`. -/
def interpolant (dt : ℝ) : ℝ := 1 - Real.exp (-rate * dt)

/-- `Camera::lerp_exp`: move every field toward `other` by `interpolant dt`. -/
def Camera.lerp_exp (self other : Camera) (dt : ℝ) : Camera :=
  { yaw := self.yaw + interpolant dt * (other.yaw - self.yaw),
    pitch := self.pitch + interpolant dt * (other.pitch - self.pitch),
    zoom := self.zoom + interpolant dt * (other.zoom - self.zoom),
    origin := self.origin + interpolant dt • (other.origin - self.origin) }

/-- The 36 cube vertex positions of `Renderer::new` in `src/render.rs`,
face order Bottom, Top, Front, Back, Left, Right. -/
def positions : List (Vec3 ℤ) :=
  [⟨-1, -1, -1⟩, ⟨-1, 1, -1⟩, ⟨1, -1, -1⟩,
   ⟨1, 1, -1⟩, ⟨1, -1, -1⟩, ⟨-1, 1, -1⟩,
   ⟨-1, -1, 1⟩, ⟨1, -1, 1⟩, ⟨-1, 1, 1⟩,
   ⟨1, 1, 1⟩, ⟨-1, 1, 1⟩, ⟨1, -1, 1⟩,
   ⟨-1, -1, -1⟩, ⟨1, -1, -1⟩, ⟨-1, -1, 1⟩,
   ⟨1, -1, 1⟩, ⟨-1, -1, 1⟩, ⟨1, -1, -1⟩,
   ⟨-1, 1, -1⟩, ⟨-1, 1, 1⟩, ⟨1, 1, -1⟩,
   ⟨1, 1, 1⟩, ⟨1, 1, -1⟩, ⟨-1, 1, 1⟩,
   ⟨-1, -1, -1⟩, ⟨-1, -1, 1⟩, ⟨-1, 1, -1⟩,
   ⟨-1, 1, 1⟩, ⟨-1, 1, -1⟩, ⟨-1, -1, 1⟩,
   ⟨1, -1, -1⟩, ⟨1, 1, -1⟩, ⟨1, -1, 1⟩,
   ⟨1, 1, 1⟩, ⟨1, -1, 1⟩, ⟨1, 1, -1⟩]

/-- The six per-face colors of `Renderer::new`, same face order. -/
def face_colors : List (Vec3 ℤ) :=
  [⟨1, 0, 0⟩, ⟨0, 1, 0⟩, ⟨0, 0, 1⟩, ⟨1, 1, 0⟩, ⟨1, 0, 1⟩, ⟨0, 1, 1⟩]

/-- The 36 vertex colors: each face color repeated six times
(`.map(|color| [color; 6])` flattened into the vertex buffer). -/
def colors : List (Vec3 ℤ) :=
  (face_colors.map fun color => List.replicate 6 color).flatten

/-- The outward normal claimed for a triangle: the cross product of its two
edges from the first vertex. -/
def tri_normal (a b c : Vec3 ℤ) : Vec3 ℤ := Vec3.cross (b - a) (c - a)

/-- Coordinate of a vector along one of the three axes. -/
def Vec3.coord {α : Type} (v : Vec3 α) : Fin 3 → α
  | 0 => v.x
  | 1 => v.y
  | 2 => v.z

/-- One cube face: vertices `6*f … 6*f+5` share a constant-sign coordinate on
some axis, and the edge cross products of both of its triangles point in the
direction of that sign on that axis. -/
def face_ok (f : Fin 6) : Prop :=
  ∃ axis : Fin 3, ∃ s ∈ ([1, -1] : List ℤ),
    (∀ i : Fin 6, (positions.getD (6 * f.val + i.val) 0).coord axis = s) ∧
    (∀ t : Fin 2,
      let a := positions.getD (6 * f.val + 3 * t.val) 0
      let b := positions.getD (6 * f.val + 3 * t.val + 1) 0
      let c := positions.getD (6 * f.val + 3 * t.val + 2) 0
      s * (tri_normal a b c).coord axis > 0 ∧
      (∀ other : Fin 3, other ≠ axis → (tri_normal a b c).coord other = 0))

instance (f : Fin 6) : Decidable (face_ok f) := by
  unfold face_ok
  infer_instance

/-- Raw keyboard key codes used by `src/main.rs` (`winit::keyboard::KeyCode`,
restricted to the keys the handler reads). -/
inductive KeyCode where
  | KeyW
  | KeyS
  | KeyA
  | KeyD
  | KeyQ
  | KeyE
  | ShiftLeft
  | ShiftRight
  | AltLeft
  | AltRight
deriving DecidableEq

/-- `contains(&code) as i32 - contains(&anti_code) as i32` for one key pair. -/
def key_step (keys : List KeyCode) (code anti_code : KeyCode) : ℤ :=
  (if code ∈ keys then 1 else 0) - (if anti_code ∈ keys then 1 else 0)

/-- One iteration of the first `RedrawRequested` loop: rotate the stepped axis
into the camera frame with `rotation().inverse()`, then zero the `y`
component (`dt.y = 0.0`). -/
def horizontal_contribution (camera : Camera) (keys : List KeyCode)
    (code anti_code : KeyCode) (delta_translation : Vec3 ℝ) : Vec3 ℝ :=
  let d := (camera.rotation).inverse.mul_vec3
    (((key_step keys code anti_code : ℤ) : ℝ) • delta_translation)
  ⟨d.x, 0, d.z⟩

/-- The accumulated raw translation vector of the redraw handler, before
normalization: W/S on `Vec3::Z` and A/D on `Vec3::X` through the camera
frame, then Q/E directly on `Vec3::Y`. -/
def combined_translation (keys : List KeyCode) (camera : Camera) : Vec3 ℝ :=
  (0 : Vec3 ℝ) + horizontal_contribution camera keys .KeyW .KeyS ⟨0, 0, 1⟩
    + horizontal_contribution camera keys .KeyA .KeyD ⟨1, 0, 0⟩
    + ((key_step keys .KeyQ .KeyE : ℤ) : ℝ) • (⟨0, 1, 0⟩ : Vec3 ℝ)

/-- The translation the redraw handler finally applies:
`0.01 * normalize_or_zero`, then `*= 4.0` while Shift is held and `/= 4.0`
while Alt is held. -/
def frame_translation (keys : List KeyCode) (camera : Camera) : Vec3 ℝ :=
  let t := (0.01 : ℝ) • (combined_translation keys camera).normalize_or_zero
  let t := if KeyCode.ShiftLeft ∈ keys ∨ KeyCode.ShiftRight ∈ keys then (4 : ℝ) • t else t
  if KeyCode.AltLeft ∈ keys ∨ KeyCode.AltRight ∈ keys then (1 / 4 : ℝ) • t else t

/-- The application state of `src/main.rs` that the redraw handler reads and
writes (window, renderer and drag state omitted: the handler's camera path
does not read them). Times are real-valued seconds. -/
structure App where
  camera_smoothed : Camera
  camera : Camera
  last_render_time : Option ℝ
  pressed_keys : List KeyCode

/-- The `RedrawRequested` arm of `App::window_event`: on the first frame copy
the live camera into the smoothed one, afterwards translate the live camera
by the key vector and advance the smoothed camera with `lerp_exp` over the
elapsed time; record `now` and hand `camera_smoothed.matrix()` to
`Renderer::render`. Returns the new state and that view matrix. -/
def App.redraw (s : App) (now : ℝ) : App × Mat4 :=
  let s' :=
    match s.last_render_time with
    | none => { s with camera_smoothed := s.camera }
    | some t =>
        let dt := now - t
        let camera' := s.camera.translate (frame_translation s.pressed_keys s.camera)
        { s with
          camera := camera',
          camera_smoothed := s.camera_smoothed.lerp_exp camera' dt }
  ({ s' with last_render_time := some now }, s'.camera_smoothed.matrix)

/-- `winit::dpi::PhysicalSize<u32>`. -/
structure PhysicalSize where
  width : ℕ
  height : ℕ
deriving DecidableEq

/-- The dimensions of a depth texture created by `Renderer` (the other
descriptor fields are constants). -/
structure TextureDesc where
  width : ℕ
  height : ℕ
deriving DecidableEq

/-- The part of `Renderer` state that `resize` touches: the surface
configuration's dimensions and the depth texture. -/
structure RendererState where
  config_width : ℕ
  config_height : ℕ
  depth_texture : TextureDesc
deriving DecidableEq

/-- `Renderer::resize`: early-return on a zero dimension, otherwise update the
configuration, reconfigure the surface and recreate the depth texture. The
boolean records whether `surface.configure` was called. -/
def RendererState.resize (r : RendererState) (size : PhysicalSize) : RendererState × Bool :=
  if size.width = 0 ∨ size.height = 0 then (r, false)
  else ({ config_width := size.width,
          config_height := size.height,
          depth_texture := ⟨size.width, size.height⟩ }, true)

@[simp] lemma Vec3.add_def {α : Type} [Add α] (a b : Vec3 α) :
    a + b = ⟨a.x + b.x, a.y + b.y, a.z + b.z⟩ := rfl

@[simp] lemma Vec3.sub_def {α : Type} [Sub α] (a b : Vec3 α) :
    a - b = ⟨a.x - b.x, a.y - b.y, a.z - b.z⟩ := rfl

@[simp] lemma Vec3.smul_def {α : Type} [Mul α] (s : α) (v : Vec3 α) :
    s • v = ⟨s * v.x, s * v.y, s * v.z⟩ := rfl

@[simp] lemma Vec3.zero_def {α : Type} [Zero α] : (0 : Vec3 α) = ⟨0, 0, 0⟩ := rfl

/-- C7: `lerp_exp` with `dt = 0` leaves every field of the smoothed camera
unchanged, for all field values, because the interpolant `1 - exp 0` is
zero. -/
theorem lerp_exp_zero_dt (self other : Camera) : self.lerp_exp other 0 = self := by
  rcases self with ⟨⟨sx, sy, sz⟩, syaw, spitch, szoom⟩
  simp [Camera.lerp_exp, interpolant, Camera.mk.injEq, Vec3.mk.injEq]

/-- C9: `Renderer::resize` with a zero width or height is a no-op — the stored
surface configuration and depth texture are unchanged and the surface is not
reconfigured. -/
theorem resize_zero_noop (r : RendererState) (size : PhysicalSize)
    (h : size.width = 0 ∨ size.height = 0) :
    r.resize size = (r, false) := by
  rw [RendererState.resize, if_pos h]

/-- Witness for `resize_zero_noop` at a zero-width size. -/
theorem resize_zero_noop_witness :
    ((0 : ℕ) = 0 ∨ (5 : ℕ) = 0) ∧
      RendererState.resize ⟨7, 9, ⟨7, 9⟩⟩ ⟨0, 5⟩ = (⟨7, 9, ⟨7, 9⟩⟩, false) :=
  ⟨Or.inl rfl, resize_zero_noop ⟨7, 9, ⟨7, 9⟩⟩ ⟨0, 5⟩ (Or.inl rfl)⟩

/-- C2: the cube geometry has exactly 36 positions and 36 index-aligned
colors; every coordinate is `±1`; each face's six vertices share one
constant-sign axis and both of its triangles' edge cross products point along
that sign (outward); each face's six colors are one constant color, the six
face colors are pairwise distinct, and none is pure black. -/
theorem cube_geometry_spec :
    positions.length = 36 ∧ colors.length = 36 ∧
    (∀ v ∈ positions, (v.x = 1 ∨ v.x = -1) ∧ (v.y = 1 ∨ v.y = -1) ∧ (v.z = 1 ∨ v.z = -1)) ∧
    (∀ f : Fin 6, face_ok f) ∧
    (∀ f : Fin 6, ∀ i : Fin 6, colors.getD (6 * f.val + i.val) 0 = face_colors.getD f.val 0) ∧
    (∀ f g : Fin 6, f ≠ g → face_colors.getD f.val 0 ≠ face_colors.getD g.val 0) ∧
    (∀ f : Fin 6, face_colors.getD f.val 0 ≠ ⟨0, 0, 0⟩) := by
  decide

lemma scalar_lerp_compose (a b dt1 dt2 : ℝ) :
    (a + interpolant dt1 * (b - a)) + interpolant dt2 * (b - (a + interpolant dt1 * (b - a)))
      = a + interpolant (dt1 + dt2) * (b - a) := by
  have h : Real.exp (-rate * (dt1 + dt2)) = Real.exp (-rate * dt1) * Real.exp (-rate * dt2) := by
    rw [← Real.exp_add]
    congr 1
    ring
  simp only [interpolant, h]
  ring

/-- C1: two `lerp_exp` steps of durations `dt1` and `dt2` equal one step of
duration `dt1 + dt2` on every field — the frame-rate-independence contract,
exact over the reals. -/
theorem lerp_exp_compose (self other : Camera) (dt1 dt2 : ℝ)
    (_h1 : 0 ≤ dt1) (_h2 : 0 ≤ dt2) :
    (self.lerp_exp other dt1).lerp_exp other dt2 = self.lerp_exp other (dt1 + dt2) := by
  rcases self with ⟨⟨sx, sy, sz⟩, syaw, spitch, szoom⟩
  rcases other with ⟨⟨ox, oy, oz⟩, oyaw, opitch, ozoom⟩
  simp only [Camera.lerp_exp, Vec3.add_def, Vec3.sub_def, Vec3.smul_def,
    Camera.mk.injEq, Vec3.mk.injEq]
  exact ⟨⟨scalar_lerp_compose sx ox dt1 dt2, scalar_lerp_compose sy oy dt1 dt2,
    scalar_lerp_compose sz oz dt1 dt2⟩, scalar_lerp_compose syaw oyaw dt1 dt2,
    scalar_lerp_compose spitch opitch dt1 dt2, scalar_lerp_compose szoom ozoom dt1 dt2⟩

/-- A camera pair used to evaluate the lerp theorems on concrete data. -/
def camA : Camera := ⟨⟨0, 0, 0⟩, 0, 0, 0⟩

/-- A second camera, differing from `camA` in every field. -/
def camB : Camera := ⟨⟨1, 2, 3⟩, 4, 5, 6⟩

/-- Witness for `lerp_exp_compose` at `dt1 = 1`, `dt2 = 2`. -/
theorem lerp_exp_compose_witness :
    (0 : ℝ) ≤ 1 ∧ (0 : ℝ) ≤ 2 ∧
      (camA.lerp_exp camB 1).lerp_exp camB 2 = camA.lerp_exp camB (1 + 2) :=
  ⟨by norm_num, by norm_num, lerp_exp_compose camA camB 1 2 (by norm_num) (by norm_num)⟩

lemma rate_pos : 0 < rate := by
  have h : Real.log (1 - STIFFNESS) < 0 :=
    Real.log_neg (by norm_num [STIFFNESS]) (by norm_num [STIFFNESS])
  have h2 : rate = -60 * Real.log (1 - STIFFNESS) := by norm_num [rate, REFERENCE_FPS]
  nlinarith

lemma scalar_lerp_residual (a b dt : ℝ) :
    b - (a + interpolant dt * (b - a)) = Real.exp (-rate * dt) * (b - a) := by
  simp only [interpolant]
  ring

lemma scalar_residual_strict_anti (a b dt1 dt2 : ℝ) (hne : a ≠ b) (h12 : dt1 < dt2) :
    |b - (a + interpolant dt2 * (b - a))| < |b - (a + interpolant dt1 * (b - a))| := by
  rw [scalar_lerp_residual, scalar_lerp_residual, abs_mul, abs_mul,
    abs_of_pos (Real.exp_pos _), abs_of_pos (Real.exp_pos _)]
  have hb : 0 < |b - a| := abs_pos.mpr (sub_ne_zero.mpr (Ne.symm hne))
  have hexp : Real.exp (-rate * dt2) < Real.exp (-rate * dt1) := by
    apply Real.exp_lt_exp.mpr
    nlinarith [rate_pos]
  exact mul_lt_mul_of_pos_right hexp hb

/-- C6: `lerp_exp` is monotonic in `dt` — on every field where the two cameras
initially differ, the remaining residual strictly decreases as `dt`
increases, for all positive durations. -/
theorem lerp_exp_strict_anti (self other : Camera) (dt1 dt2 : ℝ)
    (_h1 : 0 < dt1) (h12 : dt1 < dt2) :
    (self.yaw ≠ other.yaw →
      |other.yaw - (self.lerp_exp other dt2).yaw| <
        |other.yaw - (self.lerp_exp other dt1).yaw|) ∧
    (self.pitch ≠ other.pitch →
      |other.pitch - (self.lerp_exp other dt2).pitch| <
        |other.pitch - (self.lerp_exp other dt1).pitch|) ∧
    (self.zoom ≠ other.zoom →
      |other.zoom - (self.lerp_exp other dt2).zoom| <
        |other.zoom - (self.lerp_exp other dt1).zoom|) ∧
    (self.origin.x ≠ other.origin.x →
      |other.origin.x - (self.lerp_exp other dt2).origin.x| <
        |other.origin.x - (self.lerp_exp other dt1).origin.x|) ∧
    (self.origin.y ≠ other.origin.y →
      |other.origin.y - (self.lerp_exp other dt2).origin.y| <
        |other.origin.y - (self.lerp_exp other dt1).origin.y|) ∧
    (self.origin.z ≠ other.origin.z →
      |other.origin.z - (self.lerp_exp other dt2).origin.z| <
        |other.origin.z - (self.lerp_exp other dt1).origin.z|) := by
  rcases self with ⟨⟨sx, sy, sz⟩, syaw, spitch, szoom⟩
  rcases other with ⟨⟨ox, oy, oz⟩, oyaw, opitch, ozoom⟩
  simp only [Camera.lerp_exp, Vec3.add_def, Vec3.sub_def, Vec3.smul_def]
  exact ⟨fun h => scalar_residual_strict_anti syaw oyaw dt1 dt2 h h12,
    fun h => scalar_residual_strict_anti spitch opitch dt1 dt2 h h12,
    fun h => scalar_residual_strict_anti szoom ozoom dt1 dt2 h h12,
    fun h => scalar_residual_strict_anti sx ox dt1 dt2 h h12,
    fun h => scalar_residual_strict_anti sy oy dt1 dt2 h h12,
    fun h => scalar_residual_strict_anti sz oz dt1 dt2 h h12⟩

/-- Witness for `lerp_exp_strict_anti` at `dt1 = 1`, `dt2 = 2`. -/
theorem lerp_exp_strict_anti_witness :
    (0 : ℝ) < 1 ∧ (1 : ℝ) < 2 ∧
    ((camA.yaw ≠ camB.yaw →
      |camB.yaw - (camA.lerp_exp camB 2).yaw| <
        |camB.yaw - (camA.lerp_exp camB 1).yaw|) ∧
    (camA.pitch ≠ camB.pitch →
      |camB.pitch - (camA.lerp_exp camB 2).pitch| <
        |camB.pitch - (camA.lerp_exp camB 1).pitch|) ∧
    (camA.zoom ≠ camB.zoom →
      |camB.zoom - (camA.lerp_exp camB 2).zoom| <
        |camB.zoom - (camA.lerp_exp camB 1).zoom|) ∧
    (camA.origin.x ≠ camB.origin.x →
      |camB.origin.x - (camA.lerp_exp camB 2).origin.x| <
        |camB.origin.x - (camA.lerp_exp camB 1).origin.x|) ∧
    (camA.origin.y ≠ camB.origin.y →
      |camB.origin.y - (camA.lerp_exp camB 2).origin.y| <
        |camB.origin.y - (camA.lerp_exp camB 1).origin.y|) ∧
    (camA.origin.z ≠ camB.origin.z →
      |camB.origin.z - (camA.lerp_exp camB 2).origin.z| <
        |camB.origin.z - (camA.lerp_exp camB 1).origin.z|)) :=
  ⟨by norm_num, by norm_num, lerp_exp_strict_anti camA camB 1 2 (by norm_num) (by norm_num)⟩

@[simp] lemma Mat4.mat_mul_eq (a b : Mat4) : a * b = a.mul b := rfl

@[simp] lemma Quat.quat_mul_eq (a b : Quat) : a * b = a.mul b := rfl

/-- With the orbit pivot at the world origin (`origin = 0`), the translation
column of the view matrix is `(0, 0, -exp zoom, 1)`: the camera sits
`exp zoom` in front of the pivot along view-forward `-Z`. -/
lemma matrix_w_axis_of_origin_zero (c : Camera) (h : c.origin = ⟨0, 0, 0⟩) :
    (c.matrix).w_axis = ⟨0, 0, -Real.exp c.zoom, 1⟩ := by
  rcases c with ⟨o, yaw, pitch, zoom⟩
  simp only at h
  subst h
  simp [Camera.matrix, Mat4.mul, Mat4.mul_vec4, Mat4.from_translation, Mat4.from_quat,
    Vec4.mk.injEq]

/-- C4: `Camera::zoom(delta)` adds the delta to the stored log-distance, so
the camera-to-pivot distance `exp zoom` is multiplied by `exp delta`; a
positive delta strictly increases it; and with the pivot at the origin (the
spec's end-to-end scenario), `zoom (ln 2)` exactly doubles the magnitude of
the view-forward translation component of `matrix()`. -/
theorem zoom_log_scale (c : Camera) (d : ℝ) :
    (c.zoomBy d).zoom = c.zoom + d ∧
    Real.exp ((c.zoomBy d).zoom) = Real.exp c.zoom * Real.exp d ∧
    (0 < d → Real.exp c.zoom < Real.exp ((c.zoomBy d).zoom)) ∧
    (c.origin = ⟨0, 0, 0⟩ →
      |((c.zoomBy (Real.log 2)).matrix).w_axis.z| = 2 * |(c.matrix).w_axis.z|) := by
  refine ⟨rfl, ?_, ?_, ?_⟩
  · simp [Camera.zoomBy, Real.exp_add]
  · intro hd
    simp only [Camera.zoomBy]
    exact Real.exp_lt_exp.mpr (by linarith)
  · intro ho
    have h1 : ((c.zoomBy (Real.log 2)).matrix).w_axis =
        ⟨0, 0, -Real.exp (c.zoom + Real.log 2), 1⟩ := by
      simpa [Camera.zoomBy] using
        matrix_w_axis_of_origin_zero (c.zoomBy (Real.log 2)) (by simp [Camera.zoomBy, ho])
    have h2 : (c.matrix).w_axis = ⟨0, 0, -Real.exp c.zoom, 1⟩ :=
      matrix_w_axis_of_origin_zero c ho
    rw [h1, h2]
    simp only [abs_neg, abs_of_pos (Real.exp_pos _)]
    rw [Real.exp_add, Real.exp_log (by norm_num : (0 : ℝ) < 2)]
    ring

/-- Witness for `zoom_log_scale` at the default camera and `d = 1`. -/
theorem zoom_log_scale_witness :
    (0 : ℝ) < 1 ∧ Camera.default.origin = ⟨0, 0, 0⟩ ∧
    (Camera.default.zoomBy 1).zoom = Camera.default.zoom + 1 ∧
    Real.exp ((Camera.default.zoomBy 1).zoom) = Real.exp Camera.default.zoom * Real.exp 1 ∧
    Real.exp Camera.default.zoom < Real.exp ((Camera.default.zoomBy 1).zoom) ∧
    |((Camera.default.zoomBy (Real.log 2)).matrix).w_axis.z| =
      2 * |(Camera.default.matrix).w_axis.z| :=
  ⟨by norm_num, rfl, (zoom_log_scale Camera.default 1).1,
    (zoom_log_scale Camera.default 1).2.1,
    (zoom_log_scale Camera.default 1).2.2.1 (by norm_num),
    (zoom_log_scale Camera.default 1).2.2.2 rfl⟩

/-- C5: the default camera's view matrix sends the cube center (the world
origin) to `(0, 0, -exp 2)` — a point on the view-forward axis `-Z` at
distance `exp 2 ≈ 7.389` from the camera. -/
theorem default_matrix_centers_cube :
    (Camera.default.matrix).transform_point3 ⟨0, 0, 0⟩ = ⟨0, 0, -Real.exp 2⟩ ∧
    ((Camera.default.matrix).transform_point3 ⟨0, 0, 0⟩).length = Real.exp 2 := by
  have hw : (Camera.default.matrix).w_axis = ⟨0, 0, -Real.exp 2, 1⟩ := by
    simpa [Camera.default] using matrix_w_axis_of_origin_zero Camera.default rfl
  have hp : (Camera.default.matrix).transform_point3 ⟨0, 0, 0⟩ = ⟨0, 0, -Real.exp 2⟩ := by
    simp [Mat4.transform_point3, Mat4.mul_vec4, hw]
  refine ⟨hp, ?_⟩
  rw [hp]
  simp only [Vec3.length]
  have : (0 : ℝ) * 0 + 0 * 0 + -Real.exp 2 * -Real.exp 2 = Real.exp 2 * Real.exp 2 := by ring
  rw [this]
  exact Real.sqrt_mul_self (Real.exp_pos 2).le

lemma tau_pos : 0 < TAU := by
  have h := Real.pi_pos
  simp only [TAU]
  linarith

lemma tau_gt_six : (6 : ℝ) < TAU := by
  have h := Real.pi_gt_three
  simp only [TAU]
  linarith

/-- Dividing a home angle in `[0, 1]` plus `k` whole turns by `τ` rounds to
exactly `k`. -/
lemma round_home_div_tau (h : ℝ) (hh0 : 0 ≤ h) (hh1 : h ≤ 1) (k : ℤ) :
    round ((h + k * TAU) / TAU) = k := by
  have ht : TAU ≠ 0 := ne_of_gt tau_pos
  have hsplit : (h + k * TAU) / TAU = h / TAU + k := by
    field_simp
  rw [hsplit, round_add_int]
  have hz : round (h / TAU) = 0 := by
    rw [round_eq_zero_iff, Set.mem_Ico]
    constructor
    · have : 0 ≤ h / TAU := div_nonneg hh0 tau_pos.le
      linarith
    · rw [div_lt_iff₀ tau_pos]
      nlinarith [tau_gt_six]
  rw [hz, zero_add]

/-- `reset` on a camera whose angles are the home angles plus whole turns:
the whole turns survive, `origin` and `zoom` return to the defaults. -/
lemma reset_formula (c : Camera) (k m : ℤ)
    (hy : c.yaw = 1 + k * TAU) (hp : c.pitch = 0.5 + m * TAU) :
    c.reset = ⟨⟨0, 0, 0⟩, 1 + k * TAU, 0.5 + m * TAU, 2⟩ := by
  simp only [Camera.reset, Camera.default, hy, hp,
    round_home_div_tau 1 (by norm_num) (by norm_num) k,
    round_home_div_tau 0.5 (by norm_num) (by norm_num) m, Camera.mk.injEq]
  refine ⟨trivial, by ring, by ring, trivial⟩

/-- C3 counterexample: from the default camera, a single `orbit(τ, τ)` call —
whose yaw and pitch deltas sum to one full turn — followed by `reset()`
leaves `yaw = 1 + τ`, not the default home angle `1.0`. -/
theorem reset_not_exact_after_full_turn :
    ((Camera.default.orbit TAU TAU).reset).yaw ≠ Camera.default.yaw := by
  have h := reset_formula (Camera.default.orbit TAU TAU) 1 1
    (by simp only [Camera.orbit, Camera.default]; push_cast; ring)
    (by simp only [Camera.orbit, Camera.default]; push_cast; ring)
  rw [h]
  simp only [Camera.default]
  intro hc
  push_cast at hc
  nlinarith [tau_pos]

/-- `ds.foldl orbit`: apply a sequence of orbit calls. -/
def apply_orbits (c : Camera) (ds : List (ℝ × ℝ)) : Camera :=
  ds.foldl (fun acc d => acc.orbit d.1 d.2) c

lemma apply_orbits_fields (c : Camera) (ds : List (ℝ × ℝ)) :
    apply_orbits c ds =
      { c with yaw := c.yaw + (ds.map Prod.fst).sum,
               pitch := c.pitch + (ds.map Prod.snd).sum } := by
  induction ds generalizing c with
  | nil => simp [apply_orbits]
  | cons d ds ih =>
    show apply_orbits (c.orbit d.1 d.2) ds = _
    rw [ih]
    simp only [Camera.orbit, List.map_cons, List.sum_cons, Camera.mk.injEq]
    refine ⟨trivial, by ring, by ring, trivial⟩

/-- C3 amended: after any orbit sequence whose yaw deltas sum to `k·τ` and
whose pitch deltas sum to `m·τ`, `reset()` restores `origin` and `zoom` to
the defaults and sets yaw/pitch to the default home angles plus the same
whole number of turns — equal to the home angles modulo `τ`, and exactly
equal only when the sums are zero. -/
theorem reset_after_full_turns (ds : List (ℝ × ℝ)) (k m : ℤ)
    (hy : (ds.map Prod.fst).sum = k * TAU) (hp : (ds.map Prod.snd).sum = m * TAU) :
    (apply_orbits Camera.default ds).reset = ⟨⟨0, 0, 0⟩, 1 + k * TAU, 0.5 + m * TAU, 2⟩ := by
  rw [apply_orbits_fields]
  refine reset_formula _ k m ?_ ?_
  · show Camera.default.yaw + (ds.map Prod.fst).sum = 1 + (k : ℝ) * TAU
    rw [hy]
    simp [Camera.default]
  · show Camera.default.pitch + (ds.map Prod.snd).sum = 0.5 + (m : ℝ) * TAU
    rw [hp]
    simp [Camera.default]

/-- Witness for `reset_after_full_turns` with one full-turn orbit call. -/
theorem reset_after_full_turns_witness :
    (([((TAU, TAU) : ℝ × ℝ)].map Prod.fst).sum = (1 : ℤ) * TAU ∧
     ([((TAU, TAU) : ℝ × ℝ)].map Prod.snd).sum = (1 : ℤ) * TAU) ∧
    (apply_orbits Camera.default [(TAU, TAU)]).reset =
      ⟨⟨0, 0, 0⟩, 1 + (1 : ℤ) * TAU, 0.5 + (1 : ℤ) * TAU, 2⟩ :=
  ⟨⟨by simp, by simp⟩,
    reset_after_full_turns [(TAU, TAU)] 1 1 (by simp) (by simp)⟩

/-- App state with only the Q key pressed and a previous render at time 0. -/
def appQ : App := ⟨Camera.default, Camera.default, some 0, [KeyCode.KeyQ]⟩

/-- With only Q pressed, the redraw handler's translation is the fixed step
`(0, 0.01, 0)`, whatever the camera state. -/
lemma frame_translation_only_q (camera : Camera) :
    frame_translation [KeyCode.KeyQ] camera = ⟨0, 0.01, 0⟩ := by
  have hW : key_step [KeyCode.KeyQ] KeyCode.KeyW KeyCode.KeyS = 0 := by decide
  have hA : key_step [KeyCode.KeyQ] KeyCode.KeyA KeyCode.KeyD = 0 := by decide
  have hQ : key_step [KeyCode.KeyQ] KeyCode.KeyQ KeyCode.KeyE = 1 := by decide
  have hcomb : combined_translation [KeyCode.KeyQ] camera = ⟨0, 1, 0⟩ := by
    simp [combined_translation, horizontal_contribution, hW, hA, hQ,
      Quat.mul_vec3, Vec3.dot, Vec3.cross]
  have hlen : (⟨0, 1, 0⟩ : Vec3 ℝ).length = 1 := by
    simp [Vec3.length]
  simp [frame_translation, hcomb, Vec3.normalize_or_zero, hlen]

/-- C8 counterexample: with only Q pressed, the translation the redraw
handler applies to the live camera is identical for elapsed times 1 and 2,
yet nonzero — so it is not scaled by the elapsed time since the previous
frame (the code scales by the constant per-frame step `0.01` instead). -/
theorem frame_translation_not_time_scaled :
    (appQ.redraw 1).1.camera.origin = (appQ.redraw 2).1.camera.origin ∧
    (appQ.redraw 1).1.camera.origin ≠ Camera.default.origin := by
  constructor
  · rfl
  · simp only [App.redraw, appQ, Camera.translate, frame_translation_only_q,
      Camera.default, Vec3.add_def, Vec3.mk.injEq, ne_eq, not_and]
    norm_num

/-- The speed modifier of the redraw handler as one multiplier: ×4 while a
Shift key is held, ÷4 while an Alt key is held. -/
def speed_factor (keys : List KeyCode) : ℝ :=
  (if KeyCode.ShiftLeft ∈ keys ∨ KeyCode.ShiftRight ∈ keys then 4 else 1) *
    (if KeyCode.AltLeft ∈ keys ∨ KeyCode.AltRight ∈ keys then 1 / 4 else 1)

/-- C8 amended: each frame after the first, the discrete translate keys are
combined into a single vector, normalized, scaled by the fixed per-frame step
`0.01` (not by the elapsed time) and by the speed modifier while a modifier
key is held, and applied to the live camera via `translate`. -/
theorem redraw_applies_key_translation (s : App) (now t : ℝ)
    (h : s.last_render_time = some t) :
    (s.redraw now).1.camera =
      s.camera.translate
        ((speed_factor s.pressed_keys * 0.01) •
          (combined_translation s.pressed_keys s.camera).normalize_or_zero) := by
  rcases s with ⟨cs, c, lrt, keys⟩
  simp only at h
  subst h
  simp only [App.redraw]
  congr 1
  by_cases h1 : KeyCode.ShiftLeft ∈ keys ∨ KeyCode.ShiftRight ∈ keys <;>
    by_cases h2 : KeyCode.AltLeft ∈ keys ∨ KeyCode.AltRight ∈ keys <;>
    rcases hv : (combined_translation keys c).normalize_or_zero with ⟨nx, ny, nz⟩ <;>
    simp only [frame_translation, speed_factor, h1, h2, if_true, if_false, hv,
      Vec3.smul_def, Vec3.mk.injEq, eq_self_iff_true] <;>
    refine ⟨by ring, by ring, by ring⟩

/-- Witness for `redraw_applies_key_translation` on `appQ` at `now = 1`. -/
theorem redraw_applies_key_translation_witness :
    appQ.last_render_time = some 0 ∧
    (appQ.redraw 1).1.camera =
      appQ.camera.translate
        ((speed_factor appQ.pressed_keys * 0.01) •
          (combined_translation appQ.pressed_keys appQ.camera).normalize_or_zero) :=
  ⟨rfl, redraw_applies_key_translation appQ 1 0 rfl⟩

/-- App state before its first frame: no previous render time, and a smoothed
camera that differs from the live one. -/
def appFresh : App := ⟨camB, Camera.default, none, []⟩

/-- C10: on the first `RedrawRequested` (no recorded render time) the smoothed
camera is assigned the live camera before the view matrix is computed, so the
first frame renders the live camera exactly with no smoothing lag; on every
later frame the smoothed camera advances by `lerp_exp` toward the translated
live camera with the elapsed time since the previous frame as `dt`. -/
theorem first_redraw_no_smoothing (s : App) (now t : ℝ) :
    (s.last_render_time = none →
      (s.redraw now).1.camera_smoothed = s.camera ∧
      (s.redraw now).2 = s.camera.matrix) ∧
    (s.last_render_time = some t →
      (s.redraw now).1.camera_smoothed =
        s.camera_smoothed.lerp_exp
          (s.camera.translate (frame_translation s.pressed_keys s.camera)) (now - t) ∧
      (s.redraw now).2 = ((s.redraw now).1.camera_smoothed).matrix) := by
  rcases s with ⟨cs, c, lrt, keys⟩
  constructor
  · intro h
    simp only at h
    subst h
    exact ⟨rfl, rfl⟩
  · intro h
    simp only at h
    subst h
    exact ⟨rfl, rfl⟩

/-- Witness for `first_redraw_no_smoothing` on a fresh app and on `appQ`. -/
theorem first_redraw_no_smoothing_witness :
    ((appFresh.redraw 5).1.camera_smoothed = appFresh.camera ∧
      (appFresh.redraw 5).2 = appFresh.camera.matrix) ∧
    ((appQ.redraw 1).1.camera_smoothed =
        appQ.camera_smoothed.lerp_exp
          (appQ.camera.translate (frame_translation appQ.pressed_keys appQ.camera)) (1 - 0) ∧
      (appQ.redraw 1).2 = ((appQ.redraw 1).1.camera_smoothed).matrix) :=
  ⟨(first_redraw_no_smoothing appFresh 5 0).1 rfl,
    (first_redraw_no_smoothing appQ 1 0).2 rfl⟩
